import Mathlib

/-!
Verification development for the `markov-bot-rs` repository.

The repository is an IRC bot (`src/bot.rs`, `src/main.rs`, `src/config.rs`)
that trains per-(channel, speaker) Markov chains on channel messages,
maintains a lazily built per-channel aggregate chain, exposes a `!markov`
command surface, and persists its `{chains, user_settings, order}` state as
a CBOR blob.

This file shallowly embeds the bot's state and operations:

* Rust `HashMap`s become association lists with `alGet` / `alInsert`.
  `alInsert` puts the new binding first and erases any previous binding for
  the same key; every `alGet`-observable behaviour matches `HashMap`.
* The statistical chain type comes from the external `markov_chain` crate
  (not part of this repository); it is modelled from the spec's description
  (order, weighted edges keyed by a window of preceding tokens, incremental
  training, merging by adding weights, emptiness, total edge weight).
* `f64` arithmetic is modelled by exact fractions (`Frac`), with an explicit
  `FVal` layer for the division-by-zero (NaN / infinity) behaviour of the
  `status` command.
* Randomness (`rand::thread_rng`) and sentence generation are supplied by an
  explicit `Oracle` argument.
* File I/O: a file is `Option (List Nat)` (`none` = absent); CBOR
  serialization is modelled by an executable encoder/decoder pair over
  `List Nat`; Rust panics (`assert!`, `expect`) during load are modelled as
  the structural variant of `ReadError`, matching the spec's
  `StructuralInvariantError` (fatal, distinct from an I/O error).
-/

namespace MarkovBot

/-! ### Association lists standing in for `HashMap` -/

/-- Lookup in an association list; mirrors `HashMap::get`. -/
def alGet {κ α : Type} [DecidableEq κ] : List (κ × α) → κ → Option α
  | [], _ => none
  | (k', v') :: rest, k => if k' = k then some v' else alGet rest k

/-- Insert-or-replace; mirrors `HashMap::insert`.  The new binding is placed
first and every stale binding for the same key is dropped, so lookups behave
exactly like `HashMap`. -/
def alInsert {κ α : Type} [DecidableEq κ] (m : List (κ × α)) (k : κ) (v : α) :
    List (κ × α) :=
  (k, v) :: m.filter (fun p => !decide (p.1 = k))

/-! ### The statistical chain (external `markov_chain` crate) -/

/-- Tokens of a chain state: `none` is the begin/end padding token, `some w`
an observed word. -/
abbrev Token := Option String

/-- Weighted successors of one chain state. -/
abbrev Links := List (Token × Nat)

/-- Modelled from the spec: the external statistical chain capability (the
`markov_chain` crate is not part of this repository).  Per the spec it "holds
a learned distribution over token successors at a fixed order": a mapping
from a window of `order` preceding tokens to a weighted distribution over the
next token, trainable incrementally, mergeable by adding another chain's
weights, reporting its configured order, whether it has any data, and its
internal weighted-edge structure. -/
structure Chain where
  order : Nat
  chain : List (List Token × Links)
  deriving DecidableEq, Repr

/-- `Chain::new(order)`: a fresh chain with no data. -/
def Chain.new (order : Nat) : Chain := ⟨order, []⟩

/-- Add weight `w` to successor `t` inside one state's link list. -/
def addLink : Links → Token → Nat → Links
  | [], t, w => [(t, w)]
  | (t', w') :: rest, t, w =>
    if t' = t then (t', w' + w) :: rest else (t', w') :: addLink rest t w

/-- Add weight `w` to the edge `st → t` of a chain's state table. -/
def addState : List (List Token × Links) → List Token → Token → Nat →
    List (List Token × Links)
  | [], st, t, w => [(st, [(t, w)])]
  | (st', ls) :: rest, st, t, w =>
    if st' = st then (st', addLink ls t w) :: rest
    else (st', ls) :: addState rest st t w

/-- Add weight `w` to the edge `st → t` of a chain. -/
def Chain.addEdge (c : Chain) (st : List Token) (t : Token) (w : Nat) : Chain :=
  { c with chain := addState c.chain st t w }

/-- Character-level splitting worker: returns the current (reversed) word
and the finished words after it. -/
def splitWsAux : List Char → List Char → List String
  | [], acc => if acc.isEmpty then [] else [String.mk acc.reverse]
  | c :: rest, acc =>
    if c.isWhitespace then
      (if acc.isEmpty then [] else [String.mk acc.reverse]) ++ splitWsAux rest []
    else splitWsAux rest (c :: acc)

/-- `split_whitespace`, as Rust's `str::split_whitespace`: maximal
whitespace-free words, no empty pieces. -/
def split_whitespace (s : String) : List String := splitWsAux s.data []

/-- Split a character list on a separator character, keeping empty pieces:
the behaviour of Rust's `str::split(sep)`. -/
def splitOnCharAux (sep : Char) : List Char → List Char × List (List Char)
  | [] => ([], [])
  | c :: rest =>
    let (cur, parts) := splitOnCharAux sep rest
    if c = sep then ([], cur :: parts) else (c :: cur, parts)

def splitOnChar (sep : Char) (cs : List Char) : List (List Char) :=
  let (cur, parts) := splitOnCharAux sep cs
  cur :: parts

/-- The (window, next) transitions of a padded token list at order `k`. -/
def transAux (k : Nat) : List Token → List (List Token × Token)
  | [] => []
  | x :: rest =>
    match (x :: rest).drop k with
    | [] => []
    | t :: _ => ((x :: rest).take k, t) :: transAux k rest

/-- All transitions trained by a token sequence: the sequence is padded with
`order` begin markers and one end marker, then every window of `order` tokens
yields one weighted edge to the following token. -/
def transitions (k : Nat) (toks : List String) : List (List Token × Token) :=
  transAux k (List.replicate k none ++ toks.map some ++ [none])

/-- Modelled from the spec: `Chain::train_string` of the external crate —
"trains on a token sequence": each transition of the whitespace-tokenized
string adds one unit of weight. -/
def Chain.train_string (c : Chain) (s : String) : Chain :=
  (transitions c.order (split_whitespace s)).foldl
    (fun acc p => acc.addEdge p.1 p.2 1) c

/-- Modelled from the spec: `Chain::merge` of the external crate — "merges
another chain's data into itself" by adding the other chain's edge weights. -/
def Chain.merge (c other : Chain) : Chain :=
  other.chain.foldl
    (fun acc p => p.2.foldl (fun acc2 q => acc2.addEdge p.1 q.1 q.2) acc) c

/-- Modelled from the spec: `Chain::is_empty` of the external crate —
"reports whether it has any data". -/
def Chain.is_empty (c : Chain) : Bool := c.chain.isEmpty

/-- `IrcBot::get_chain_total` (bot.rs:337-343): sums all outgoing edge
weights across all chain states, mirroring the source's nested folds. -/
def get_chain_total (c : Chain) : Nat :=
  (c.chain.map (fun p => p.2.foldl (fun a q => a + q.2) 0)).foldl
    (fun a b => a + b) 0

/-! ### `f64` values modelled as exact fractions

The only `f64` values the core manipulates are reply chances (small decimal
literals) and the `status` percentage.  They are modelled exactly as
integer-numerator / natural-denominator fractions; every constructor used by
the model produces a positive denominator, so the integer cross-multiplication
comparisons below agree with the real-number comparisons of the source. -/

/-- An exact fraction standing in for an `f64` value. -/
structure Frac where
  num : Int
  den : Nat
  deriving DecidableEq, Repr

/-- Embed a natural number. -/
def Frac.ofNat (n : Nat) : Frac := ⟨n, 1⟩

/-- `<=` on `f64`, by cross multiplication. -/
def Frac.ble (a b : Frac) : Bool := a.num * (b.den : Int) ≤ b.num * (a.den : Int)

/-- `<` on `f64`, by cross multiplication. -/
def Frac.blt (a b : Frac) : Bool := a.num * (b.den : Int) < b.num * (a.den : Int)

/-- Fractional decimal digits of `r / d` (`r < d`), with fuel. -/
def fracDigits (d : Nat) : Nat → Nat → List Nat
  | 0, _ => []
  | fuel + 1, r =>
    if r = 0 then [] else (r * 10) / d :: fracDigits d fuel ((r * 10) % d)

/-- Display formatting of an `f64` value (`format!` with no precision),
modelled for nonnegative terminating decimals: integer part, then the
fractional digits if any. -/
def fmtF (f : Frac) : String :=
  let sign := if f.num < 0 then "-" else ""
  let n := f.num.natAbs
  let ip := n / f.den
  let digits := fracDigits f.den 30 (n % f.den)
  if digits.isEmpty then sign ++ toString ip
  else sign ++ toString ip ++ "." ++
    String.mk (digits.map (fun d => Char.ofNat (d + 48)))

/-- `{:.4}` formatting of a nonnegative fraction: round to four decimal
places and zero-pad the fractional part. -/
def fmtFixed4 (f : Frac) : String :=
  let n := f.num.natAbs
  let rounded := (2 * n * 10000 + f.den) / (2 * f.den)
  let ip := rounded / 10000
  let fp := rounded % 10000
  let fs := toString fp
  toString ip ++ "." ++ String.mk (List.replicate (4 - fs.length) '0') ++ fs

/-- An `f64` computation result: a finite value, NaN, or infinity. -/
inductive FVal
  | num (f : Frac)
  | nan
  | inf
  deriving DecidableEq, Repr

/-- The `status` percentage `(user_total as f64) / (all_total as f64) * 100.0`
(bot.rs:327), with the IEEE behaviour at a zero divisor: `0/0` is NaN and
`x/0` infinity. -/
def statusVal (userTotal allTotal : Nat) : FVal :=
  if allTotal = 0 then (if userTotal = 0 then .nan else .inf)
  else .num ⟨userTotal * 100, allTotal⟩

/-- `{:.4}` formatting of an `f64` computation result; Rust prints `NaN` and
`inf` for the non-finite values. -/
def fmt4 : FVal → String
  | .num f => fmtFixed4 f
  | .nan => "NaN"
  | .inf => "inf"

/-- Digits-only parse (fails on empty or non-digit input). -/
def parseDigits : List Char → Option Nat
  | [] => none
  | cs => cs.foldl
      (fun acc c =>
        acc.bind (fun a => if c.isDigit then some (a * 10 + (c.toNat - 48)) else none))
      (some 0)

/-- `str::parse::<usize>` modelled on plain digit strings. -/
def parseUsize (s : String) : Option Nat := parseDigits s.data

/-- Unsigned decimal-literal parse: integer part, optional fractional part,
read as an exact fraction over a power-of-ten denominator. -/
def parseF64Core (cs : List Char) : Option Frac :=
  match splitOnChar '.' cs with
  | [i] => (parseDigits i).map (fun n => Frac.mk n 1)
  | [i, f] =>
    if i = [] ∧ f = [] then none
    else
      (match (if i = [] then some 0 else parseDigits i),
             (if f = [] then some 0 else parseDigits f) with
       | some ni, some nf =>
         some ⟨ni * 10 ^ f.length + nf, 10 ^ f.length⟩
       | _, _ => none)
  | _ => none

/-- `str::parse::<f64>` modelled on plain decimal literals (optional sign,
integer part, optional fractional part), read as an exact fraction.  Exotic
forms (exponents, `inf`, `NaN`) are outside the model and fail to parse. -/
def parseF64 (s : String) : Option Frac :=
  match s.data with
  | '-' :: rest => (parseF64Core rest).map (fun f => ⟨-f.num, f.den⟩)
  | '+' :: rest => parseF64Core rest
  | cs => parseF64Core cs

/-! ### Bot state (src/bot.rs) -/

/-- `UserSettings` (bot.rs:15-19). -/
structure UserSettings where
  ignore : Bool
  chance : Frac
  deriving DecidableEq, Repr

/-- `BlobFile` (bot.rs:21-26): the persisted snapshot artifact. -/
structure BlobFile where
  chains : List (String × List (String × Chain))
  user_settings : List (String × List (String × UserSettings))
  order : Nat
  deriving DecidableEq, Repr

/-- `IrcBot` (bot.rs:28-36).  The `server: IrcServer` handle is modelled by
the one piece of it the core reads, `current_nickname()`, as `nick`. -/
structure IrcBot where
  chains : List (String × List (String × Chain))
  allchains : List (String × Chain)
  user_settings : List (String × List (String × UserSettings))
  ignore : List String
  order : Nat
  chance : Frac
  nick : String
  deriving DecidableEq, Repr

/-- `DEFAULT_CHANCE` (bot.rs:12). -/
def DEFAULT_CHANCE : Frac := ⟨1, 100⟩

/-- `DEFAULT_ORDER` (bot.rs:13). -/
def DEFAULT_ORDER : Nat := 1

/-- The `ignore` option: a comma-separated speaker list (bot.rs:44-47). -/
def ignoreList (options : List (String × String)) : List String :=
  ((alGet options "ignore").map
      (fun x => (splitOnChar ',' x.data).map String.mk)).getD []

/-- The `order` option parse (bot.rs:48-51); `none` models the `unwrap`
panic on malformed input. -/
def configuredOrder (options : List (String × String)) : Option Nat :=
  match alGet options "order" with
  | none => some DEFAULT_ORDER
  | some s => parseUsize s

/-- The `chance` option parse (bot.rs:52-55); `none` models the `unwrap`
panic on malformed input. -/
def configuredChance (options : List (String × String)) : Option Frac :=
  match alGet options "chance" with
  | none => some DEFAULT_CHANCE
  | some s => parseF64 s

/-- `IrcBot::new` (bot.rs:39-58): fresh state from the configuration
options; `none` models an option-parsing panic. -/
def IrcBot.new (nick : String) (options : List (String × String)) :
    Option IrcBot := do
  let ord ← configuredOrder options
  let ch ← configuredChance options
  some { chains := [], allchains := [], user_settings := [],
         ignore := ignoreList options, order := ord, chance := ch, nick := nick }

/-- `IrcBot::from_blob_file` (bot.rs:61-81): state from a loaded snapshot;
the order comes from the blob, not from the options. -/
def from_blob_file (nick : String) (options : List (String × String))
    (blob : BlobFile) : Option IrcBot := do
  let ch ← configuredChance options
  some { chains := blob.chains, allchains := [],
         user_settings := blob.user_settings, ignore := ignoreList options,
         order := blob.order, chance := ch, nick := nick }

/-- `IrcBot::is_ignored` (bot.rs:180-191): in the static global ignore list,
or the per-channel record's flag (absent records count as not ignored). -/
def IrcBot.is_ignored (bot : IrcBot) (channel user : String) : Bool :=
  bot.ignore.contains user ||
    (((alGet bot.user_settings channel).map
        (fun c => ((alGet c user).map (fun u => u.ignore)).getD false)).getD false)

/-- `IrcBot::user_settings_mut` (bot.rs:160-177): get-or-create the
`(channel, user)` settings record (defaults: not ignored, global chance);
returns the updated bot and the record read through the reference. -/
def user_settings_mut (bot : IrcBot) (channel user : String) :
    IrcBot × UserSettings :=
  let inner := (alGet bot.user_settings channel).getD []
  let r := (alGet inner user).getD ⟨false, bot.chance⟩
  let inner' :=
    match alGet inner user with
    | some _ => inner
    | none => alInsert inner user ⟨false, bot.chance⟩
  ({ bot with user_settings := alInsert bot.user_settings channel inner' }, r)

/-- Writing through the `user_settings_mut` reference: get-or-create the
record, then replace it by `f` of it. -/
def update_user_settings (bot : IrcBot) (channel user : String)
    (f : UserSettings → UserSettings) : IrcBot :=
  let inner := (alGet bot.user_settings channel).getD []
  let r := (alGet inner user).getD ⟨false, bot.chance⟩
  { bot with user_settings :=
      alInsert bot.user_settings channel (alInsert inner user (f r)) }

/-- `IrcBot::user_chain_mut` (bot.rs:148-158): get-or-create the channel map
and the user's chain (at the configured order). -/
def user_chain_mut (bot : IrcBot) (channel user : String) : IrcBot × Chain :=
  let inner := (alGet bot.chains channel).getD []
  let c := (alGet inner user).getD (Chain.new bot.order)
  let inner' :=
    match alGet inner user with
    | some _ => inner
    | none => alInsert inner user (Chain.new bot.order)
  ({ bot with chains := alInsert bot.chains channel inner' }, c)

/-- Writing through the `user_chain_mut` reference: get-or-create the user's
chain, then replace it by `f` of it. -/
def update_user_chain (bot : IrcBot) (channel user : String)
    (f : Chain → Chain) : IrcBot :=
  let inner := (alGet bot.chains channel).getD []
  let c := (alGet inner user).getD (Chain.new bot.order)
  { bot with chains :=
      alInsert bot.chains channel (alInsert inner user (f c)) }

/-- `IrcBot::allchain_mut` (bot.rs:132-146): get-or-build the channel
aggregate.  When absent it is created at the configured order; if the channel
has per-user chains, every one of them is merged in (the only merge in the
system); if the channel is unknown an empty channel map is inserted into
`chains` as a side effect. -/
def allchain_mut (bot : IrcBot) (channel : String) : IrcBot × Chain :=
  match alGet bot.allchains channel with
  | some c => (bot, c)
  | none =>
    let (chains', ac) :=
      match alGet bot.chains channel with
      | none => (alInsert bot.chains channel [], Chain.new bot.order)
      | some m =>
        (bot.chains, m.foldl (fun acc p => acc.merge p.2) (Chain.new bot.order))
    ({ bot with chains := chains', allchains := alInsert bot.allchains channel ac },
     ac)

/-- Writing through the `allchain_mut` reference: get-or-build the aggregate,
then replace it by `f` of it. -/
def update_allchain (bot : IrcBot) (channel : String) (f : Chain → Chain) :
    IrcBot :=
  let (b, ac) := allchain_mut bot channel
  { b with allchains := alInsert b.allchains channel (f ac) }

/-! ### Message handling (src/bot.rs) -/

/-- An outbound `send_privmsg(target, text)` call. -/
abbrev Msg := String × String

/-- The sources of nondeterminism of one message handling: the
`rand::thread_rng().next_f64()` draw and the sentence produced by
`generate_sentence()` (generation is random and is treated as an opaque
capability by the spec). -/
structure Oracle where
  rnd : Frac
  sentence : String
  deriving DecidableEq, Repr

/-- Modelled from the spec: the success branch of the `emulate` command.
The source (bot.rs:222-223) references a binding `chain` that is not derived
from the looked-up `(channel, speaker)` pair — it is not bound at all in that
scope — which the spec flags as a defect; per the spec the handler should
generate from "that same looked-up chain" when "it holds data". -/
def emulate_reply (sender channel : String) (user_chain : Chain) (o : Oracle) :
    List Msg :=
  if user_chain.is_empty then []
  else [(channel, sender ++ ": " ++ o.sentence)]

/-- `IrcBot::handle_command` (bot.rs:193-335).  The source's entry
`assert!`s (parts non-empty and starting with `!markov`) always hold on the
path from `channel_message`; on other inputs this model dispatches on the
verb alone, like the source after its asserts. -/
def handle_command (bot : IrcBot) (sender channel : String)
    (parts : List String) (o : Oracle) : IrcBot × List Msg :=
  match parts.getD 1 "" with
  | "emulate" =>
    if parts.length < 3 then
      (bot, [(channel, "Usage: !markov emulate <user> [<channel>]")])
    else
      let user := parts.getD 2 ""
      let chan := parts.getD 3 channel
      match alGet bot.chains chan with
      | none => (bot, [(channel, sender ++ ": No chain for channel " ++ chan)])
      | some chanChain =>
        match alGet chanChain user with
        | none => (bot, [(channel, sender ++ ": No chain for user " ++ user)])
        | some user_chain => (bot, emulate_reply sender channel user_chain o)
  | "force" =>
    let (b1, c) := user_chain_mut bot channel sender
    if c.is_empty then (b1, [])
    else (b1, [(channel, sender ++ ": " ++ o.sentence)])
  | "all" =>
    let (b1, _) := allchain_mut bot channel
    match alGet b1.allchains channel with
    | some c =>
      if c.is_empty then (b1, [])
      else (b1, [(channel, sender ++ ": " ++ o.sentence)])
    | none => (b1, [])
  | "ignore" =>
    if bot.is_ignored channel sender then (bot, [])
    else
      let b1 := update_user_settings bot channel sender
        (fun r => { r with ignore := false })
      (b1, [(sender,
        "You are now being ignored. Use !markov listen to undo this command")])
  | "listen" =>
    if bot.is_ignored channel sender then
      let b1 := update_user_settings bot channel sender
        (fun r => { r with ignore := false })
      (b1, [(sender,
        "Markov is now listening to what you say. Use !markov ignore to undo this command.")])
    else (bot, [])
  | "chance" =>
    if parts.length ≤ 2 then
      let (b1, r) := user_settings_mut bot channel sender
      (b1, [(sender, "Your markov chance is " ++ fmtF r.chance)])
    else
      match parseF64 (parts.getD 2 "") with
      | some c =>
        if c.ble bot.chance && (Frac.ofNat 0).ble c then
          let b1 := update_user_settings bot channel sender
            (fun r => { r with chance := c })
          (b1, [(sender,
            "Your chance for getting a random message from markov is " ++ fmtF c)])
        else
          (bot, [(sender,
            "The chance mut be set to a valid number between 0.0 and " ++
              fmtF bot.chance)])
      | none => (bot, [(sender, "Invalid number format")])
  | "status" =>
    let (b1, uc) := user_chain_mut bot channel sender
    let user_total := get_chain_total uc
    let (b2, ac) := allchain_mut b1 channel
    let all_total := get_chain_total ac
    (b2, [(channel,
      sender ++ ": You are worth " ++ fmt4 (statusVal user_total all_total) ++
        "% of the channel")])
  | _ => (bot, [])

/-- The command-recognition test of `channel_message` (bot.rs:104):
`msg_parts.len() > 1 && msg_parts[0] == "!markov"`. -/
def isMarkovCmd (parts : List String) : Bool :=
  parts.length > 1 && parts.getD 0 "" == "!markov"

/-- `IrcBot::channel_message` (bot.rs:96-130): own messages are dropped;
commands are dispatched; otherwise, unless the sender is ignored, the message
trains the channel aggregate first and then the sender's chain, and with
probability `chance` a generated reply is sent in-channel. -/
def channel_message (bot : IrcBot) (sender channel msg : String) (o : Oracle) :
    IrcBot × List Msg :=
  if sender = bot.nick then (bot, [])
  else
    let parts := split_whitespace msg
    if isMarkovCmd parts then handle_command bot sender channel parts o
    else if bot.is_ignored channel sender then (bot, [])
    else
      let (b1, r) := user_settings_mut bot channel sender
      let b2 := update_allchain b1 channel (fun a => a.train_string msg)
      let b3 := update_user_chain b2 channel sender (fun c => c.train_string msg)
      if o.rnd.blt r.chance then
        let (b4, _) := user_chain_mut b3 channel sender
        (b4, [(channel, sender ++ ": " ++ o.sentence)])
      else (b3, [])

/-- One inbound event: sender, channel, text, and the oracle for this
handling. -/
abbrev Event := String × String × String × Oracle

/-- Fold a sequence of channel messages through the bot, discarding the
outbound replies. -/
def runMessages (bot : IrcBot) (events : List Event) : IrcBot :=
  events.foldl
    (fun b e => (channel_message b e.1 e.2.1 e.2.2.1 e.2.2.2).1) bot

/-! ### Persistence (src/bot.rs save_blob / read_blob)

The CBOR wire format of `serde_cbor` is external to the repository; it is
modelled by an executable encoder/decoder pair over `List Nat` with the two
properties the source relies on: decoding inverts encoding, and decoding
rejects input with trailing data (`serde_cbor::from_slice` consumes the whole
slice). -/

/-- Modelled from the spec: serialization of a `Nat`. -/
def encNat (n : Nat) : List Nat := [n]

def decNat : List Nat → Option (Nat × List Nat)
  | [] => none
  | n :: r => some (n, r)

/-- Modelled from the spec: serialization of a `Bool`. -/
def encBool (b : Bool) : List Nat := [cond b 1 0]

def decBool : List Nat → Option (Bool × List Nat)
  | 0 :: r => some (false, r)
  | 1 :: r => some (true, r)
  | _ => none

/-- Modelled from the spec: serialization of an `Int`. -/
def encInt : Int → List Nat
  | .ofNat n => [0, n]
  | .negSucc n => [1, n]

def decInt : List Nat → Option (Int × List Nat)
  | 0 :: n :: r => some (.ofNat n, r)
  | 1 :: n :: r => some (.negSucc n, r)
  | _ => none

/-- Modelled from the spec: serialization of a length-prefixed list. -/
def encList {α : Type} (enc : α → List Nat) (xs : List α) : List Nat :=
  encNat xs.length ++ xs.foldr (fun x acc => enc x ++ acc) []

def decListN {α : Type} (dec : List Nat → Option (α × List Nat)) :
    Nat → List Nat → Option (List α × List Nat)
  | 0, c => some ([], c)
  | n + 1, c => do
    let (x, c1) ← dec c
    let (xs, c2) ← decListN dec n c1
    some (x :: xs, c2)

def decList {α : Type} (dec : List Nat → Option (α × List Nat))
    (c : List Nat) : Option (List α × List Nat) := do
  let (n, c1) ← decNat c
  decListN dec n c1

/-- Modelled from the spec: serialization of a `String` as its characters. -/
def encString (s : String) : List Nat :=
  encList (fun c => [c.toNat]) s.data

def decChar : List Nat → Option (Char × List Nat)
  | [] => none
  | n :: r => some (Char.ofNat n, r)

def decString (c : List Nat) : Option (String × List Nat) :=
  (decList decChar c).map (fun p => (String.mk p.1, p.2))

/-- Modelled from the spec: serialization of a fraction (an `f64` in the
source). -/
def encFrac (f : Frac) : List Nat := encInt f.num ++ encNat f.den

def decFrac (c : List Nat) : Option (Frac × List Nat) := do
  let (n, c1) ← decInt c
  let (d, c2) ← decNat c1
  some (⟨n, d⟩, c2)

/-- Modelled from the spec: serialization of a pair. -/
def encPair {α β : Type} (enca : α → List Nat) (encb : β → List Nat)
    (p : α × β) : List Nat :=
  enca p.1 ++ encb p.2

def decPair {α β : Type} (deca : List Nat → Option (α × List Nat))
    (decb : List Nat → Option (β × List Nat)) (c : List Nat) :
    Option ((α × β) × List Nat) := do
  let (a, c1) ← deca c
  let (b, c2) ← decb c1
  some ((a, b), c2)

/-- Modelled from the spec: serialization of a token (`Option String`). -/
def encTok : Token → List Nat
  | none => [0]
  | some s => 1 :: encString s

def decTok : List Nat → Option (Token × List Nat)
  | 0 :: r => some (none, r)
  | 1 :: r => (decString r).map (fun p => (some p.1, p.2))
  | _ => none

/-- Modelled from the spec: serialization of a chain (its order and its
weighted-edge structure). -/
def encChain (c : Chain) : List Nat :=
  encNat c.order ++
    encList (encPair (encList encTok) (encList (encPair encTok encNat))) c.chain

def decChain (c : List Nat) : Option (Chain × List Nat) := do
  let (o, c1) ← decNat c
  let (st, c2) ← decList
      (decPair (decList decTok) (decList (decPair decTok decNat))) c1
  some (⟨o, st⟩, c2)

/-- Modelled from the spec: serialization of a settings record. -/
def encSettings (s : UserSettings) : List Nat :=
  encBool s.ignore ++ encFrac s.chance

def decSettings (c : List Nat) : Option (UserSettings × List Nat) := do
  let (i, c1) ← decBool c
  let (q, c2) ← decFrac c1
  some (⟨i, q⟩, c2)

/-- Modelled from the spec: serialization of the whole snapshot record
`{chains, user_settings, order}`. -/
def encBlob (b : BlobFile) : List Nat :=
  encList (encPair encString (encList (encPair encString encChain))) b.chains ++
    encList (encPair encString (encList (encPair encString encSettings)))
      b.user_settings ++
    encNat b.order

def decBlob (c : List Nat) : Option (BlobFile × List Nat) := do
  let (ch, c1) ← decList
      (decPair decString (decList (decPair decString decChain))) c
  let (us, c2) ← decList
      (decPair decString (decList (decPair decString decSettings))) c1
  let (o, c3) ← decNat c2
  some (⟨ch, us, o⟩, c3)

/-- `cbor::to_vec` (bot.rs:353), modelled by the explicit encoder. -/
def cborToVec (b : BlobFile) : List Nat := encBlob b

/-- `cbor::from_slice::<BlobFile>` (bot.rs:365): deserialization of exactly
one snapshot record; any parse failure or trailing data is rejected. -/
def cborFromSlice (c : List Nat) : Option BlobFile :=
  match decBlob c with
  | some (b, []) => some b
  | _ => none

/-- The snapshot of the current state taken by `save_blob` (bot.rs:348-352). -/
def blobOf (bot : IrcBot) : BlobFile :=
  ⟨bot.chains, bot.user_settings, bot.order⟩

/-- `OpenOptions::new().write(true).create(true)` followed by `write_all`
(bot.rs:354-355): the file is created if absent but NOT truncated, so the new
bytes overwrite the front of any prior content and a longer prior tail
survives. -/
def writeFileNoTrunc (prior newBytes : List Nat) : List Nat :=
  newBytes ++ prior.drop newBytes.length

/-- `IrcBot::save_blob` (bot.rs:346-356): serialize `{chains, user_settings,
order}` and write it over the target's prior content (`[]` for a fresh
target). -/
def save_blob (bot : IrcBot) (prior : List Nat) : List Nat :=
  writeFileNoTrunc prior (cborToVec (blobOf bot))

/-- A failed load: an I/O error (`io::Result` error path) or a structural
failure.  The source's `expect` on a CBOR parse failure and its `assert_eq!`
on a chain order mismatch are panics — fatal load failures the spec classes
as `StructuralInvariantError`, distinct from an I/O error — and are modelled
by the `structural` variant. -/
inductive ReadError
  | io (e : String)
  | structural (e : String)
  deriving DecidableEq, Repr

instance exceptDecEq {ε α : Type} [DecidableEq ε] [DecidableEq α] :
    DecidableEq (Except ε α) := fun x y =>
  match x, y with
  | .ok a, .ok b =>
    if h : a = b then isTrue (by rw [h])
    else isFalse (by intro hc; cases hc; exact h rfl)
  | .error a, .error b =>
    if h : a = b then isTrue (by rw [h])
    else isFalse (by intro hc; cases hc; exact h rfl)
  | .ok _, .error _ => isFalse (by intro hc; cases hc)
  | .error _, .ok _ => isFalse (by intro hc; cases hc)

/-- The order validation loop of `read_blob` (bot.rs:367-371): every chain of
every channel must report the snapshot's declared order. -/
def ordersOK (b : BlobFile) : Bool :=
  b.chains.all (fun p => p.2.all (fun q => q.2.order == b.order))

/-- `IrcBot::read_blob` (bot.rs:359-374): open and read the target (absent
target: I/O error), deserialize (failure: fatal structural error), then check
the order invariant over every contained chain (mismatch: fatal structural
error); on success the contained snapshot is returned unchanged. -/
def read_blob (file : Option (List Nat)) : Except ReadError BlobFile :=
  match file with
  | none => .error (.io "not found")
  | some bytes =>
    match cborFromSlice bytes with
    | none => .error (.structural "invalid cbor data")
    | some data =>
      if ordersOK data then .ok data
      else .error (.structural "order mismatch")

/-! ### Total-weight arithmetic of chains -/

/-- Sum of the weights of one state's links. -/
def linkSum (ls : Links) : Nat := (ls.map Prod.snd).sum

/-- Sum of all edge weights of a state table. -/
def stSum (l : List (List Token × Links)) : Nat :=
  (l.map (fun p => linkSum p.2)).sum

/-- Sum of all edge weights of a chain. -/
def chainTotal (c : Chain) : Nat := stSum c.chain

/-! ### Concrete fixtures -/

/-- A fresh bot: order 1, global chance `0.01`, nickname `markov`. -/
def bot0 : IrcBot := ⟨[], [], [], [], 1, ⟨1, 100⟩, "markov"⟩

/-- An oracle whose random draw (`1.0`) never triggers a reply. -/
def o0 : Oracle := ⟨⟨1, 1⟩, "beep boop"⟩

/-- A chain trained once on `"hello world"`. -/
def chainHW : Chain := Chain.train_string (Chain.new 1) "hello world"

/-- A populated bot: alice trained once in `#c`. -/
def botT : IrcBot :=
  { bot0 with
    chains := [("#c", [("alice", chainHW)])],
    user_settings := [("#c", [("alice", ⟨false, ⟨1, 100⟩⟩)])] }

/-- A snapshot whose declared order (1) disagrees with a contained chain's
order (2). -/
def blobBad : BlobFile := ⟨[("#c", [("u", Chain.new 2)])], [], 1⟩

/-! ### The uniform-order invariant (claims C2 and C6) -/

/-- Uniform chain order: every stored chain reports the bot's configured
order.  This holds for every reachable state (chains are created at
`self.order` and loaded snapshots are validated), and is what the `assert!`
of `read_blob` checks on the snapshot. -/
def OrderInv (bot : IrcBot) : Prop :=
  ∀ p ∈ bot.chains, ∀ q ∈ p.2, q.2.order = bot.order

instance (bot : IrcBot) : Decidable (OrderInv bot) := by
  unfold OrderInv
  exact List.decidableBAll _ bot.chains

/-- A bot whose static global ignore list contains alice. -/
def botIgnA : IrcBot := { bot0 with ignore := ["alice"] }

/-- A snapshot declaring order 3. -/
def blob3 : BlobFile := ⟨[], [], 3⟩

/-! ### Settings-record lookups -/

/-- The `(channel, user)` settings record, if present. -/
def settingsAt (bot : IrcBot) (ch u : String) : Option UserSettings :=
  (alGet bot.user_settings ch).bind (fun m => alGet m u)

/-! ### Aggregate-consistency invariants (claim C7) -/

/-- Sum of the total weights of a channel map's per-speaker chains. -/
def chanListSum (m : List (String × Chain)) : Nat :=
  (m.map (fun p => get_chain_total p.2)).sum

/-- Sum of the total weights of all speaker chains of a channel. -/
def chanSum (bot : IrcBot) (ch : String) : Nat :=
  chanListSum ((alGet bot.chains ch).getD [])

/-- Aggregate consistency: every existing channel aggregate's total weight
equals the sum of the channel's per-speaker chain total weights. -/
def AggInv (bot : IrcBot) : Prop :=
  ∀ p ∈ bot.allchains, get_chain_total p.2 = chanSum bot p.1

instance (bot : IrcBot) : Decidable (AggInv bot) := by
  unfold AggInv
  exact List.decidableBAll _ bot.allchains

/-- Representation invariant of the association-list embedding: a real
`HashMap` never holds two bindings for one key. -/
def WFChains (bot : IrcBot) : Prop :=
  ∀ p ∈ bot.chains, (p.2.map Prod.fst).Nodup

instance (bot : IrcBot) : Decidable (WFChains bot) := by
  unfold WFChains
  exact List.decidableBAll _ bot.chains

/-- Two speakers train in `#c`; the aggregate is built lazily at the first
message. -/
def evs7 : List Event :=
  [("alice", "#c", "hello world", o0), ("bob", "#c", "hello hello", o0)]

theorem alGet_alInsert {κ α : Type} [DecidableEq κ] (m : List (κ × α)) (k k₂ : κ) (v : α) :
    alGet (alInsert m k v) k₂ = if k₂ = k then some v else alGet m k₂ := by
  unfold alInsert
  by_cases h : k = k₂
  · subst h; simp [alGet]
  · have h₂ : ¬ k₂ = k := fun hc => h hc.symm
    simp only [alGet, if_neg h, if_neg h₂]
    induction m with
    | nil => simp [alGet]
    | cons p rest ih =>
      cases p with
      | mk a b =>
        by_cases hp : a = k
        · subst hp
          simp only [List.filter_cons]
          simp [alGet, h, ih]
        · simp only [List.filter_cons]
          by_cases ha : a = k₂
          · subst ha
            simp [alGet, hp]
          · simp [alGet, hp, ha, ih]

theorem alGet_mem {κ α : Type} [DecidableEq κ] {m : List (κ × α)} {k : κ} {v : α}
    (h : alGet m k = some v) : (k, v) ∈ m := by
  induction m with
  | nil => simp [alGet] at h
  | cons p rest ih =>
    cases p with
    | mk a b =>
      by_cases ha : a = k
      · subst ha
        simp [alGet] at h
        simp [h]
      · simp [alGet, ha] at h
        exact List.mem_cons_of_mem _ (ih h)

theorem mem_alInsert {κ α : Type} [DecidableEq κ] {m : List (κ × α)} {k : κ} {v : α}
    {p : κ × α} :
    p ∈ alInsert m k v ↔ p = (k, v) ∨ (p ∈ m ∧ p.1 ≠ k) := by
  unfold alInsert
  simp [List.mem_filter]

/-- When a key is absent, filtering it away changes nothing. -/
theorem filter_eq_self_of_alGet_none {κ α : Type} [DecidableEq κ] {m : List (κ × α)} {k : κ}
    (h : alGet m k = none) : m.filter (fun p => !decide (p.1 = k)) = m := by
  induction m with
  | nil => rfl
  | cons p rest ih =>
    cases p with
    | mk a b =>
      by_cases ha : a = k
      · subst ha; simp [alGet] at h
      · simp [alGet, ha] at h
        simp [List.filter_cons, ha, ih h]

/-! ### Decode inverts encode -/

theorem decNat_enc (n : Nat) (r : List Nat) : decNat (encNat n ++ r) = some (n, r) := rfl

theorem decBool_enc (b : Bool) (r : List Nat) : decBool (encBool b ++ r) = some (b, r) := by
  cases b <;> rfl

theorem decInt_enc (i : Int) (r : List Nat) : decInt (encInt i ++ r) = some (i, r) := by
  cases i <;> rfl

theorem decChar_enc (c : Char) (r : List Nat) : decChar (c.toNat :: r) = some (c, r) := by
  simp [decChar, Char.ofNat_toNat]

theorem decListN_enc {α : Type} (dec : List Nat → Option (α × List Nat))
    (enc : α → List Nat) (hrt : ∀ x r, dec (enc x ++ r) = some (x, r)) :
    ∀ (xs : List α) (r : List Nat),
      decListN dec xs.length (xs.foldr (fun x acc => enc x ++ acc) [] ++ r) =
        some (xs, r) := by
  intro xs
  induction xs with
  | nil => intro r; simp [decListN]
  | cons x rest ih =>
    intro r
    simp only [List.length_cons, List.foldr_cons, decListN, List.append_assoc]
    rw [hrt, Option.bind_eq_bind, Option.some_bind, ih]
    rfl

theorem decList_enc {α : Type} (dec : List Nat → Option (α × List Nat))
    (enc : α → List Nat) (hrt : ∀ x r, dec (enc x ++ r) = some (x, r))
    (xs : List α) (r : List Nat) :
    decList dec (encList enc xs ++ r) = some (xs, r) := by
  simp only [decList, encList, List.append_assoc]
  rw [decNat_enc, Option.bind_eq_bind, Option.some_bind, decListN_enc dec enc hrt]

theorem decString_enc (s : String) (r : List Nat) :
    decString (encString s ++ r) = some (s, r) := by
  simp only [decString, encString]
  rw [decList_enc decChar (fun c => [c.toNat])
    (fun c r2 => decChar_enc c r2) s.data r]
  cases s; rfl

theorem decPair_enc {α β : Type}
    (deca : List Nat → Option (α × List Nat)) (enca : α → List Nat)
    (decb : List Nat → Option (β × List Nat)) (encb : β → List Nat)
    (ha : ∀ x r, deca (enca x ++ r) = some (x, r))
    (hb : ∀ x r, decb (encb x ++ r) = some (x, r))
    (p : α × β) (r : List Nat) :
    decPair deca decb (encPair enca encb p ++ r) = some (p, r) := by
  simp only [decPair, encPair, List.append_assoc]
  rw [ha, Option.bind_eq_bind, Option.some_bind, hb]
  rfl

theorem decTok_enc (t : Token) (r : List Nat) :
    decTok (encTok t ++ r) = some (t, r) := by
  cases t with
  | none => rfl
  | some s =>
    simp only [encTok, decTok, List.cons_append]
    rw [decString_enc]
    rfl

theorem decFrac_enc (f : Frac) (r : List Nat) :
    decFrac (encFrac f ++ r) = some (f, r) := by
  simp only [decFrac, encFrac, List.append_assoc]
  rw [decInt_enc, Option.bind_eq_bind, Option.some_bind, decNat_enc]
  rfl

theorem decChain_enc (c : Chain) (r : List Nat) :
    decChain (encChain c ++ r) = some (c, r) := by
  simp only [decChain, encChain, List.append_assoc]
  rw [decNat_enc, Option.bind_eq_bind, Option.some_bind,
    decList_enc _ _ (decPair_enc _ _ _ _
      (decList_enc _ _ decTok_enc)
      (decList_enc _ _ (decPair_enc _ _ _ _ decTok_enc decNat_enc)))]
  rfl

theorem decSettings_enc (s : UserSettings) (r : List Nat) :
    decSettings (encSettings s ++ r) = some (s, r) := by
  simp only [decSettings, encSettings, List.append_assoc]
  rw [decBool_enc, Option.bind_eq_bind, Option.some_bind, decFrac_enc]
  rfl

theorem decBlob_enc (b : BlobFile) (r : List Nat) :
    decBlob (encBlob b ++ r) = some (b, r) := by
  simp only [decBlob, encBlob, List.append_assoc]
  rw [decList_enc _ _ (decPair_enc _ _ _ _ decString_enc
        (decList_enc _ _ (decPair_enc _ _ _ _ decString_enc decChain_enc))),
    Option.bind_eq_bind, Option.some_bind,
    decList_enc _ _ (decPair_enc _ _ _ _ decString_enc
        (decList_enc _ _ (decPair_enc _ _ _ _ decString_enc decSettings_enc)))]
  rfl

theorem cborFromSlice_toVec (b : BlobFile) : cborFromSlice (cborToVec b) = some b := by
  unfold cborFromSlice cborToVec
  rw [show encBlob b = encBlob b ++ [] from (List.append_nil _).symm, decBlob_enc]

theorem foldl_add_eq (l : List Nat) : ∀ n : Nat,
    l.foldl (fun a b => a + b) n = n + l.sum := by
  induction l with
  | nil => simp
  | cons x rest ih => intro n; simp [List.foldl_cons, ih]; omega

theorem links_foldl (ls : Links) : ∀ n : Nat,
    ls.foldl (fun a q => a + q.2) n = n + linkSum ls := by
  induction ls with
  | nil => simp [linkSum]
  | cons q rest ih => intro n; simp [List.foldl_cons, ih, linkSum]; omega

/-- The source's `get_chain_total` computes the sum of all edge weights. -/
theorem get_chain_total_eq (c : Chain) : get_chain_total c = chainTotal c := by
  unfold get_chain_total chainTotal stSum
  rw [foldl_add_eq]
  have h : ∀ p : List Token × Links,
      p.2.foldl (fun a q => a + q.2) 0 = linkSum p.2 := by
    intro p; rw [links_foldl]; omega
  simp [h]

theorem linkSum_addLink (ls : Links) (t : Token) (w : Nat) :
    linkSum (addLink ls t w) = linkSum ls + w := by
  induction ls with
  | nil => simp [addLink, linkSum]
  | cons q rest ih =>
    cases q with
    | mk t' w' =>
      by_cases h : t' = t
      · simp [addLink, h, linkSum]; omega
      · simp only [addLink, if_neg h]
        simp [linkSum] at ih ⊢
        omega

theorem stSum_addState (l : List (List Token × Links)) (st : List Token)
    (t : Token) (w : Nat) : stSum (addState l st t w) = stSum l + w := by
  induction l with
  | nil => simp [addState, stSum, linkSum]
  | cons p rest ih =>
    cases p with
    | mk st' ls =>
      by_cases h : st' = st
      · simp [addState, h, stSum, linkSum_addLink]; omega
      · simp only [addState, if_neg h]
        simp [stSum] at ih ⊢
        omega

theorem chainTotal_addEdge (c : Chain) (st : List Token) (t : Token) (w : Nat) :
    chainTotal (c.addEdge st t w) = chainTotal c + w := by
  unfold Chain.addEdge chainTotal
  exact stSum_addState c.chain st t w

theorem chainTotal_foldl_addEdge (l : List (List Token × Token)) : ∀ c : Chain,
    chainTotal (l.foldl (fun acc p => acc.addEdge p.1 p.2 1) c) =
      chainTotal c + l.length := by
  induction l with
  | nil => intro c; simp
  | cons p rest ih =>
    intro c
    simp only [List.foldl_cons, List.length_cons]
    rw [ih, chainTotal_addEdge]
    omega

theorem transAux_length (k : Nat) : ∀ l : List Token,
    (transAux k l).length = l.length - k := by
  intro l
  induction l with
  | nil => simp [transAux]
  | cons x rest ih =>
    rw [transAux]
    rcases hd : (x :: rest).drop k with _ | ⟨t, tl⟩
    · have h0 : (x :: rest).length - k = 0 := by
        have := congrArg List.length hd
        simpa using this
      simp only [List.length_cons] at h0
      simp only [List.length_nil, List.length_cons]
      omega
    · have hlen := congrArg List.length hd
      simp only [List.length_drop, List.length_cons] at hlen
      simp only [List.length_cons, ih]
      omega

theorem transitions_length (k : Nat) (toks : List String) :
    (transitions k toks).length = toks.length + 1 := by
  unfold transitions
  rw [transAux_length]
  simp

/-- Training adds one unit of weight per transition of the tokenized
message; the amount depends only on the message, not on the chain. -/
theorem chainTotal_train (c : Chain) (s : String) :
    chainTotal (c.train_string s) =
      chainTotal c + ((split_whitespace s).length + 1) := by
  unfold Chain.train_string
  rw [chainTotal_foldl_addEdge, transitions_length]

theorem chainTotal_foldl_links (st : List Token) (ls : Links) : ∀ c : Chain,
    chainTotal (ls.foldl (fun acc2 q => acc2.addEdge st q.1 q.2) c) =
      chainTotal c + linkSum ls := by
  induction ls with
  | nil => intro c; simp [linkSum]
  | cons q rest ih =>
    intro c
    simp only [List.foldl_cons]
    rw [ih, chainTotal_addEdge]
    simp [linkSum]
    omega

theorem chainTotal_foldl_states (l : List (List Token × Links)) : ∀ c : Chain,
    chainTotal (l.foldl
      (fun acc p => p.2.foldl (fun acc2 q => acc2.addEdge p.1 q.1 q.2) acc) c) =
      chainTotal c + stSum l := by
  induction l with
  | nil => intro c; simp [stSum]
  | cons p rest ih =>
    intro c
    simp only [List.foldl_cons]
    rw [ih, chainTotal_foldl_links]
    simp [stSum]
    omega

/-- Merging adds the other chain's total weight. -/
theorem chainTotal_merge (a b : Chain) :
    chainTotal (a.merge b) = chainTotal a + chainTotal b := by
  unfold Chain.merge
  exact chainTotal_foldl_states b.chain a

theorem chainTotal_new (k : Nat) : chainTotal (Chain.new k) = 0 := rfl

theorem chainTotal_foldl_merge (m : List (String × Chain)) : ∀ c : Chain,
    chainTotal (m.foldl (fun acc p => acc.merge p.2) c) =
      chainTotal c + (m.map (fun p => chainTotal p.2)).sum := by
  induction m with
  | nil => intro c; simp
  | cons p rest ih =>
    intro c
    simp only [List.foldl_cons, List.map_cons, List.sum_cons]
    rw [ih, chainTotal_merge]
    omega

/-- C2: for a snapshot artifact that deserializes to `blob` with declared
order `blob.order`, loading succeeds with exactly the contained state iff
every contained chain reports that order; on any mismatch the load fails
with a structural error, which is never an I/O error and never a silent
success. -/
theorem read_blob_order_invariant (bytes : List Nat) (blob : BlobFile)
    (h : cborFromSlice bytes = some blob) :
    (ordersOK blob = true → read_blob (some bytes) = .ok blob) ∧
    (ordersOK blob = false →
      read_blob (some bytes) = .error (.structural "order mismatch") ∧
      (∀ e, read_blob (some bytes) ≠ .error (.io e)) ∧
      (∀ b', read_blob (some bytes) ≠ .ok b')) := by
  constructor
  · intro ho
    simp [read_blob, h, ho]
  · intro ho
    refine ⟨by simp [read_blob, h, ho], ?_, ?_⟩
    · intro e hc
      simp [read_blob, h, ho] at hc
    · intro b' hc
      simp [read_blob, h, ho] at hc

/-- C2 witness: a well-formed snapshot loads back as its contents; a
snapshot declaring order 1 but containing an order-2 chain fails with the
structural error. -/
theorem read_blob_order_invariant_witness :
    read_blob (some (cborToVec (blobOf botT))) = .ok (blobOf botT) ∧
    read_blob (some (cborToVec blobBad)) =
      .error (.structural "order mismatch") :=
  ⟨(read_blob_order_invariant (cborToVec (blobOf botT)) (blobOf botT)
      (by decide)).1 (by decide),
   ((read_blob_order_invariant (cborToVec blobBad) blobBad
      (by decide)).2 (by decide)).1⟩

/-! ### Claim C5: `save_blob` does not truncate the target -/

/-- C5: `save_blob` opens the target with `write(true).create(true)` but no
`truncate`, so over a pre-existing longer file (here: the fresh bot's own
serialization plus one stale byte) the saved file is NOT exactly the
serialization of the current state — the stale tail survives, and a
subsequent `read_blob` of that very file fails on the trailing data instead
of returning the state. -/
theorem save_blob_no_truncate :
    save_blob bot0 (cborToVec (blobOf bot0) ++ [99]) =
      cborToVec (blobOf bot0) ++ [99] ∧
    save_blob bot0 (cborToVec (blobOf bot0) ++ [99]) ≠ cborToVec (blobOf bot0) ∧
    read_blob (some (save_blob bot0 (cborToVec (blobOf bot0) ++ [99]))) =
      .error (.structural "invalid cbor data") := by
  refine ⟨by decide, by decide, by decide⟩

/-! ### Claim C6: save/load round trip -/

/-- C6: for every store whose chains all report the configured order,
saving to a fresh target and loading it back returns exactly the
`{chains, user_settings, order}` snapshot, and the bot reconstructed from
that snapshot agrees with the original in per-speaker chains, settings and
order, with its lazily rebuilt channel aggregates carrying exactly the
summed weight of the channel's per-speaker chains. -/
theorem save_load_round_trip (bot : IrcBot) (h : OrderInv bot) :
    read_blob (some (save_blob bot [])) = .ok (blobOf bot) ∧
    (∀ b', from_blob_file bot.nick [] (blobOf bot) = some b' →
      b'.chains = bot.chains ∧ b'.user_settings = bot.user_settings ∧
      b'.order = bot.order ∧
      ∀ ch m, alGet b'.chains ch = some m →
        get_chain_total (allchain_mut b' ch).2 =
          (m.map (fun p => get_chain_total p.2)).sum) := by
  have hsave : save_blob bot [] = cborToVec (blobOf bot) := by
    unfold save_blob writeFileNoTrunc
    simp
  have ho : ordersOK (blobOf bot) = true := by
    simp only [ordersOK, blobOf, List.all_eq_true, beq_iff_eq]
    intro p hp q hq
    exact h p hp q hq
  constructor
  · rw [hsave]
    simp [read_blob, cborFromSlice_toVec, ho]
  · intro b' hb
    have hb' : b' =
        { chains := bot.chains, allchains := [],
          user_settings := bot.user_settings, ignore := ignoreList [],
          order := bot.order, chance := DEFAULT_CHANCE, nick := bot.nick } := by
      simp [from_blob_file, configuredChance, alGet, blobOf] at hb
      exact hb.symm
    subst hb'
    refine ⟨rfl, rfl, rfl, ?_⟩
    intro ch m hm
    simp only at hm
    simp only [allchain_mut, alGet, hm]
    rw [get_chain_total_eq, chainTotal_foldl_merge]
    simp only [chainTotal_new, Nat.zero_add]
    congr 1
    exact List.map_congr_left (fun p _ => (get_chain_total_eq p.2).symm)

/-- C6 witness: the populated fixture round-trips. -/
theorem save_load_round_trip_witness :
    read_blob (some (save_blob botT [])) = .ok (blobOf botT) :=
  (save_load_round_trip botT (by decide)).1

/-- C1: evaluating the `ignore` handler on a not-yet-ignored speaker.  The
handler sends exactly one private confirmation ("You are now being
ignored..."), but it writes `ignore = false` into the speaker's record
(bot.rs:276), so after handling the speaker is still NOT ignored — the
claim's "sets the ignored flag to true" is what the code fails to do.  On an
already-ignored speaker the handler is indeed a no-op that sends nothing. -/
theorem ignore_command_leaves_flag_false :
    (handle_command bot0 "alice" "#chan" ["!markov", "ignore"] o0).2 =
      [("alice",
        "You are now being ignored. Use !markov listen to undo this command")] ∧
    ((alGet (handle_command bot0 "alice" "#chan"
        ["!markov", "ignore"] o0).1.user_settings "#chan").bind
      (fun m => alGet m "alice")).map UserSettings.ignore = some false ∧
    IrcBot.is_ignored
      (handle_command bot0 "alice" "#chan" ["!markov", "ignore"] o0).1
      "#chan" "alice" = false ∧
    handle_command botIgnA "alice" "#chan" ["!markov", "ignore"] o0 =
      (botIgnA, []) := by
  refine ⟨by decide, by decide, by decide, by decide⟩

/-! ### Claim C4: the `emulate` command -/

/-- C4: the `emulate` handler over the spec-modelled success branch
(`emulate_reply`; the source's own success branch references an unbound
`chain` value, bot.rs:222).  With alice's non-empty chain present the reply
is generated from the looked-up chain and addressed to the invoker; a
missing speaker or channel produces the explicit no-chain message, exactly
as the source's lookup branches (bot.rs:229-239) do. -/
theorem emulate_uses_looked_up_chain :
    handle_command botT "bob" "#c" ["!markov", "emulate", "alice"] o0 =
      (botT, [("#c", "bob: beep boop")]) ∧
    handle_command botT "bob" "#c" ["!markov", "emulate", "carol"] o0 =
      (botT, [("#c", "bob: No chain for user carol")]) ∧
    handle_command botT "bob" "#x" ["!markov", "emulate", "carol"] o0 =
      (botT, [("#x", "bob: No chain for channel #x")]) := by
  refine ⟨by decide, by decide, by decide⟩

/-! ### Claim C9: the `status` command -/

/-- C9: `status` always sends exactly one in-channel message whose reported
value is the speaker's total weight divided by the aggregate's total weight,
times 100, formatted to four decimal places — including the zero-aggregate
state, where the IEEE NaN result is reported (never a crash), as the closed
second conjunct shows on a fresh bot. -/
theorem status_reports_percentage (bot : IrcBot) (sender channel : String)
    (o : Oracle) :
    handle_command bot sender channel ["!markov", "status"] o =
      ((allchain_mut (user_chain_mut bot channel sender).1 channel).1,
       [(channel, sender ++ ": You are worth " ++
          fmt4 (statusVal
            (get_chain_total (user_chain_mut bot channel sender).2)
            (get_chain_total
              (allchain_mut (user_chain_mut bot channel sender).1 channel).2)) ++
          "% of the channel")]) ∧
    (handle_command bot0 "alice" "#chan" ["!markov", "status"] o0).2 =
      [("#chan", "alice: You are worth NaN% of the channel")] := by
  constructor
  · rcases hu : user_chain_mut bot channel sender with ⟨b1, uc⟩
    rcases ha : allchain_mut b1 channel with ⟨b2, ac⟩
    simp [handle_command, hu, ha]
  · decide

/-! ### Claim C10: the order comes from the snapshot, not the options -/

/-- C10: a bot built from a loaded snapshot takes its order from the
snapshot's declared order field, whatever the configuration options say; a
fresh bot takes its order from the configured `order` option (defaulting to
`DEFAULT_ORDER`). -/
theorem order_from_snapshot (nick : String) (options : List (String × String))
    (blob : BlobFile) :
    (∀ b, from_blob_file nick options blob = some b → b.order = blob.order) ∧
    (∀ b, IrcBot.new nick options = some b →
      some b.order = configuredOrder options) := by
  constructor
  · intro b hb
    unfold from_blob_file at hb
    cases hc : configuredChance options with
    | none => rw [hc] at hb; simp at hb
    | some q =>
      rw [hc] at hb
      simp only [Option.bind_eq_bind, Option.some_bind, Option.some.injEq] at hb
      rw [← hb]
  · intro b hb
    unfold IrcBot.new at hb
    cases ho : configuredOrder options with
    | none => rw [ho] at hb; simp at hb
    | some n =>
      rw [ho] at hb
      cases hc : configuredChance options with
      | none => rw [hc] at hb; simp at hb
      | some q =>
        rw [hc] at hb
        simp only [Option.bind_eq_bind, Option.some_bind,
          Option.some.injEq] at hb
        rw [← hb]

/-- C10 witness: with `order = 5` configured, loading a snapshot declaring
order 3 yields order 3, and a fresh bot yields order 5. -/
theorem order_from_snapshot_witness :
    (from_blob_file "n" [("order", "5")] blob3).map IrcBot.order = some 3 ∧
    (IrcBot.new "n" [("order", "5")]).map IrcBot.order = some 5 := by
  constructor
  · rcases hf : from_blob_file "n" [("order", "5")] blob3 with _ | b
    · exact absurd hf (by decide)
    · have h := (order_from_snapshot "n" [("order", "5")] blob3).1 b hf
      simp [h, blob3]
  · rcases hf : IrcBot.new "n" [("order", "5")] with _ | b
    · exact absurd hf (by decide)
    · have h := (order_from_snapshot "n" [("order", "5")] blob3).2 b hf
      have h5 : configuredOrder [("order", "5")] = some 5 := by decide
      rw [h5] at h
      simp [← Option.some.injEq b.order 5, h]

theorem alGet_getD_inner (bot : IrcBot) (ch u : String) :
    alGet ((alGet bot.user_settings ch).getD []) u = settingsAt bot ch u := by
  unfold settingsAt
  cases h : alGet bot.user_settings ch with
  | none => simp [alGet]
  | some m => simp

theorem settingsAt_update (bot : IrcBot) (ch u : String)
    (f : UserSettings → UserSettings) :
    settingsAt (update_user_settings bot ch u f) ch u =
      some (f ((settingsAt bot ch u).getD ⟨false, bot.chance⟩)) := by
  unfold update_user_settings settingsAt
  simp [alGet_alInsert, alGet_getD_inner]
  rfl

theorem settingsAt_update_other (bot : IrcBot) (ch u ch' u' : String)
    (f : UserSettings → UserSettings) (h : ¬(ch' = ch ∧ u' = u)) :
    settingsAt (update_user_settings bot ch u f) ch' u' =
      settingsAt bot ch' u' := by
  unfold update_user_settings settingsAt
  by_cases hch : ch' = ch
  · subst hch
    have hu : ¬ u' = u := fun hc => h ⟨rfl, hc⟩
    simp [alGet_alInsert, hu, alGet_getD_inner]
    rfl
  · simp [alGet_alInsert, hch]

/-- The claim's "v < 0.0 or v > globalChance" is the complement of the
source's acceptance test `v <= chance && v >= 0.0`. -/
theorem frac_range_split (v g : Frac) :
    (v.blt (Frac.ofNat 0) || g.blt v) = !(v.ble g && (Frac.ofNat 0).ble v) := by
  unfold Frac.blt Frac.ble Frac.ofNat
  rw [Bool.eq_iff_iff]
  simp only [Bool.or_eq_true, decide_eq_true_eq, Bool.not_eq_true',
    Bool.and_eq_false_iff, decide_eq_false_iff_not]
  push_cast
  generalize v.num * (g.den : Int) = a
  generalize g.num * (v.den : Int) = b
  omega

/-- C3 counterexample: with the global chance `0.01`, the out-of-range
request `!markov chance 0.2` leaves the store untouched and replies
privately — but the reply text reads "The chance mut be set ..."
(bot.rs:312), not the claim's "The chance must be set ...". -/
theorem chance_reply_wording :
    handle_command bot0 "alice" "#chan" ["!markov", "chance", "0.2"] o0 =
      (bot0,
       [("alice", "The chance mut be set to a valid number between 0.0 and 0.01")]) ∧
    (handle_command bot0 "alice" "#chan" ["!markov", "chance", "0.2"] o0).2 ≠
      [("alice", "The chance must be set to a valid number between 0.0 and 0.01")] := by
  refine ⟨by decide, by decide⟩

/-- C3 (amended): an out-of-range value (`v < 0.0` or `v > globalChance`)
leaves the whole store unchanged and sends the single private reply
"The chance mut be set to a valid number between 0.0 and `<globalChance>`";
an in-range value updates exactly the invoker's record — its chance becomes
`v`, its ignored flag is preserved, every other settings record and all
chain state are untouched — and privately confirms. -/
theorem chance_cmd_validation (bot : IrcBot) (sender channel s : String)
    (v : Frac) (o : Oracle) (hp : parseF64 s = some v) :
    ((v.blt (Frac.ofNat 0) || bot.chance.blt v) = true →
      handle_command bot sender channel ["!markov", "chance", s] o =
        (bot, [(sender,
          "The chance mut be set to a valid number between 0.0 and " ++
            fmtF bot.chance)])) ∧
    ((v.blt (Frac.ofNat 0) || bot.chance.blt v) = false →
      (handle_command bot sender channel ["!markov", "chance", s] o).2 =
        [(sender,
          "Your chance for getting a random message from markov is " ++ fmtF v)] ∧
      settingsAt (handle_command bot sender channel ["!markov", "chance", s] o).1
          channel sender =
        some ⟨(((settingsAt bot channel sender).map UserSettings.ignore).getD
          false), v⟩ ∧
      (∀ ch u, ¬(ch = channel ∧ u = sender) →
        settingsAt (handle_command bot sender channel
            ["!markov", "chance", s] o).1 ch u = settingsAt bot ch u) ∧
      (handle_command bot sender channel ["!markov", "chance", s] o).1.chains =
        bot.chains ∧
      (handle_command bot sender channel
          ["!markov", "chance", s] o).1.allchains = bot.allchains) := by
  have hcond := frac_range_split v bot.chance
  constructor
  · intro hout
    rw [hcond] at hout
    have hc : (v.ble bot.chance && (Frac.ofNat 0).ble v) = false := by
      cases hb : (v.ble bot.chance && (Frac.ofNat 0).ble v) <;> simp [hb] at hout ⊢
    simp [handle_command, hp, hc]
  · intro hin
    rw [hcond] at hin
    have hc : (v.ble bot.chance && (Frac.ofNat 0).ble v) = true := by
      cases hb : (v.ble bot.chance && (Frac.ofNat 0).ble v) <;> simp [hb] at hin ⊢
    have hres : handle_command bot sender channel ["!markov", "chance", s] o =
        (update_user_settings bot channel sender
          (fun r => { r with chance := v }),
         [(sender,
           "Your chance for getting a random message from markov is " ++
             fmtF v)]) := by
      simp [handle_command, hp, hc]
    refine ⟨by rw [hres], ?_, ?_, by rw [hres]; rfl, by rw [hres]; rfl⟩
    · rw [hres]
      rw [settingsAt_update]
      cases h : settingsAt bot channel sender <;> simp [h]
    · intro ch u hne
      rw [hres]
      exact settingsAt_update_other bot channel sender ch u _ hne

/-- C3 witness: on the fresh bot, `!markov chance 0.005` (in range) updates
alice's record to chance 0.005 and confirms; `!markov chance 0.2` (out of
range for global chance 0.01) changes nothing and reports the range. -/
theorem chance_cmd_validation_witness :
    (handle_command bot0 "alice" "#chan" ["!markov", "chance", "0.005"] o0).2 =
      [("alice", "Your chance for getting a random message from markov is 0.005")] ∧
    settingsAt (handle_command bot0 "alice" "#chan"
        ["!markov", "chance", "0.005"] o0).1 "#chan" "alice" =
      some ⟨false, ⟨5, 1000⟩⟩ ∧
    handle_command bot0 "alice" "#chan" ["!markov", "chance", "0.2"] o0 =
      (bot0,
       [("alice", "The chance mut be set to a valid number between 0.0 and 0.01")]) := by
  refine ⟨((chance_cmd_validation bot0 "alice" "#chan" "0.005" ⟨5, 1000⟩ o0
      (by decide)).2 (by decide)).1, ?_, ?_⟩
  · have h := ((chance_cmd_validation bot0 "alice" "#chan" "0.005" ⟨5, 1000⟩ o0
      (by decide)).2 (by decide)).2.1
    simpa using h
  · exact (chance_cmd_validation bot0 "alice" "#chan" "0.2" ⟨2, 10⟩ o0
      (by decide)).1 (by decide)

/-! ### Claim C8: ignore suppression -/

/-- C8: once a `(channel, speaker)` is ignored — through the global ignore
list or the per-channel record — every further non-command message from that
speaker leaves the entire bot state unchanged and sends nothing. -/
theorem ignored_noncommand_is_noop (bot : IrcBot) (sender channel msg : String)
    (o : Oracle) (h1 : bot.is_ignored channel sender = true)
    (h2 : isMarkovCmd (split_whitespace msg) = false) :
    channel_message bot sender channel msg o = (bot, []) := by
  unfold channel_message
  by_cases hn : sender = bot.nick
  · simp [hn]
  · simp [hn, h1, h2]

/-- C8 witness: an ignored speaker's ordinary message is a complete no-op. -/
theorem ignored_noncommand_is_noop_witness :
    channel_message botIgnA "alice" "#c" "hello world" o0 = (botIgnA, []) :=
  ignored_noncommand_is_noop botIgnA "alice" "#c" "hello world" o0
    (by decide) (by decide)

theorem alGet_none_of_not_mem_keys {κ α : Type} [DecidableEq κ]
    {m : List (κ × α)} {k : κ} (h : k ∉ m.map Prod.fst) : alGet m k = none := by
  induction m with
  | nil => rfl
  | cons p rest ih =>
    simp only [List.map_cons, List.mem_cons] at h
    push_neg at h
    simp only [alGet]
    cases p with
    | mk a b =>
      rw [if_neg (fun hc => h.1 hc.symm)]
      exact ih h.2

theorem keys_nodup_alInsert {κ α : Type} [DecidableEq κ]
    {m : List (κ × α)} (k : κ) (v : α) (h : (m.map Prod.fst).Nodup) :
    ((alInsert m k v).map Prod.fst).Nodup := by
  unfold alInsert
  simp only [List.map_cons, List.nodup_cons]
  constructor
  · intro hc
    rcases List.mem_map.mp hc with ⟨p, hp, hpk⟩
    rcases List.mem_filter.mp hp with ⟨_, hfil⟩
    simp at hfil
    exact hfil hpk
  · exact List.Nodup.sublist (List.Sublist.map _ (List.filter_sublist m)) h

theorem chanListSum_cons (p : String × Chain) (rest : List (String × Chain)) :
    chanListSum (p :: rest) = get_chain_total p.2 + chanListSum rest := by
  simp [chanListSum]

/-- Removing the (unique) binding of key `u` removes exactly its weight. -/
theorem chanListSum_filter_key (m : List (String × Chain)) (u : String)
    (c0 : Chain) (hnd : (m.map Prod.fst).Nodup) (h : alGet m u = some c0) :
    chanListSum m =
      get_chain_total c0 +
        chanListSum (m.filter (fun p => !decide (p.1 = u))) := by
  induction m with
  | nil => simp [alGet] at h
  | cons p rest ih =>
    simp only [List.map_cons, List.nodup_cons] at hnd
    cases p with
    | mk a b =>
      by_cases ha : a = u
      · subst ha
        simp [alGet] at h
        subst h
        have hrest : alGet rest a = none := by
          apply alGet_none_of_not_mem_keys
          exact hnd.1
        simp only [List.filter_cons, decide_eq_true_eq]
        rw [if_neg (by simp)]
        rw [filter_eq_self_of_alGet_none hrest, chanListSum_cons]
      · simp only [alGet, if_neg ha] at h
        simp only [List.filter_cons]
        rw [if_pos (by simp [ha])]
        rw [chanListSum_cons, chanListSum_cons, ih hnd.2 h]
        omega

theorem chanListSum_alInsert_some (m : List (String × Chain)) (u : String)
    (c0 c : Chain) (hnd : (m.map Prod.fst).Nodup) (h : alGet m u = some c0) :
    chanListSum (alInsert m u c) + get_chain_total c0 =
      chanListSum m + get_chain_total c := by
  unfold alInsert
  rw [chanListSum_cons]
  rw [chanListSum_filter_key m u c0 hnd h]
  dsimp only
  omega

theorem chanListSum_alInsert_none (m : List (String × Chain)) (u : String)
    (c : Chain) (h : alGet m u = none) :
    chanListSum (alInsert m u c) = chanListSum m + get_chain_total c := by
  unfold alInsert
  rw [chanListSum_cons, filter_eq_self_of_alGet_none h]
  dsimp only
  omega

theorem get_chain_total_train (c : Chain) (msg : String) :
    get_chain_total (c.train_string msg) =
      get_chain_total c + ((split_whitespace msg).length + 1) := by
  rw [get_chain_total_eq, get_chain_total_eq, chainTotal_train]

theorem get_chain_total_new (k : Nat) : get_chain_total (Chain.new k) = 0 := rfl

theorem get_chain_total_build (m : List (String × Chain)) (k : Nat) :
    get_chain_total (m.foldl (fun acc p => acc.merge p.2) (Chain.new k)) =
      chanListSum m := by
  rw [get_chain_total_eq, chainTotal_foldl_merge]
  simp only [chainTotal_new, Nat.zero_add, chanListSum]
  congr 1
  exact List.map_congr_left (fun p _ => (get_chain_total_eq p.2).symm)

theorem alInsert_alInsert {κ α : Type} [DecidableEq κ]
    (m : List (κ × α)) (k : κ) (v w : α) :
    alInsert (alInsert m k v) k w = alInsert m k w := by
  unfold alInsert
  congr 1
  rw [List.filter_cons]
  rw [if_neg (by simp)]
  induction m with
  | nil => rfl
  | cons p rest ih =>
    rw [List.filter_cons]
    by_cases hp : p.1 = k
    · rw [if_neg (by simp [hp])]
      exact ih
    · rw [if_pos (by simp [hp])]
      rw [List.filter_cons, if_pos (by simp [hp]), ih]

/-- Transport of the aggregate invariant along lookup-equal states. -/
theorem AggInv_of_eq (b b' : IrcBot) (ha : b'.allchains = b.allchains)
    (hc : ∀ ch, alGet b'.chains ch = alGet b.chains ch) (h : AggInv b) :
    AggInv b' := by
  intro p hp
  rw [ha] at hp
  unfold chanSum
  rw [hc]
  exact h p hp

theorem update_allchain_case_some (bot : IrcBot) (ch : String)
    (f : Chain → Chain) (ac : Chain) (h : alGet bot.allchains ch = some ac) :
    update_allchain bot ch f =
      { bot with allchains := alInsert bot.allchains ch (f ac) } := by
  unfold update_allchain allchain_mut
  rw [h]

theorem update_allchain_case_build (bot : IrcBot) (ch : String)
    (f : Chain → Chain) (m : List (String × Chain))
    (h1 : alGet bot.allchains ch = none) (h2 : alGet bot.chains ch = some m) :
    update_allchain bot ch f =
      { bot with allchains :=
                   alInsert bot.allchains ch
                     (f (m.foldl (fun acc p => acc.merge p.2)
                       (Chain.new bot.order))) } := by
  unfold update_allchain allchain_mut
  rw [h1, h2]
  simp [alInsert_alInsert]

theorem update_allchain_case_new (bot : IrcBot) (ch : String)
    (f : Chain → Chain) (h1 : alGet bot.allchains ch = none)
    (h2 : alGet bot.chains ch = none) :
    update_allchain bot ch f =
      { bot with chains := alInsert bot.chains ch [],
                 allchains := alInsert bot.allchains ch
                   (f (Chain.new bot.order)) } := by
  unfold update_allchain allchain_mut
  rw [h1, h2]
  simp [alInsert_alInsert]

theorem update_user_chain_eq (bot : IrcBot) (ch u : String)
    (f : Chain → Chain) :
    update_user_chain bot ch u f =
      { bot with chains :=
                   alInsert bot.chains ch
                     (alInsert ((alGet bot.chains ch).getD []) u
                       (f ((alGet ((alGet bot.chains ch).getD []) u).getD
                         (Chain.new bot.order)))) } := rfl

/-- Training the aggregate and then the speaker's chain with the same
message preserves well-formedness and the aggregate invariant — the heart of
the aggregate-consistency argument: both sides of the invariant grow by the
same amount, the message's transition count. -/
theorem trainBoth_preserves (bot : IrcBot) (ch s msg : String)
    (hwf : WFChains bot) (hinv : AggInv bot) :
    WFChains (update_user_chain (update_allchain bot ch
        (fun a => a.train_string msg)) ch s (fun c => c.train_string msg)) ∧
    AggInv (update_user_chain (update_allchain bot ch
        (fun a => a.train_string msg)) ch s (fun c => c.train_string msg)) := by
  have key : ∃ (ac0 : Chain) (inner : List (String × Chain)),
      update_user_chain (update_allchain bot ch
          (fun a => a.train_string msg)) ch s (fun c => c.train_string msg) =
        { bot with
          chains :=
            alInsert bot.chains ch
              (alInsert inner s
                (((alGet inner s).getD (Chain.new bot.order)).train_string msg)),
          allchains := alInsert bot.allchains ch (ac0.train_string msg) } ∧
      get_chain_total ac0 = chanListSum inner ∧
      (inner.map Prod.fst).Nodup ∧
      (alGet bot.chains ch = some inner ∨
        (alGet bot.chains ch = none ∧ inner = [])) := by
    cases hA : alGet bot.allchains ch with
    | some ac =>
      refine ⟨ac, (alGet bot.chains ch).getD [], ?_, ?_, ?_, ?_⟩
      · rw [update_allchain_case_some bot ch _ ac hA, update_user_chain_eq]
      · have h := hinv (ch, ac) (alGet_mem hA)
        exact h
      · cases hC : alGet bot.chains ch with
        | none => simp
        | some m => simpa using hwf (ch, m) (alGet_mem hC)
      · cases hC : alGet bot.chains ch with
        | none => right; simp
        | some m => left; simp
    | none =>
      cases hC : alGet bot.chains ch with
      | some m =>
        refine ⟨m.foldl (fun acc p => acc.merge p.2) (Chain.new bot.order),
          m, ?_, ?_, ?_, ?_⟩
        · rw [update_allchain_case_build bot ch _ m hA hC, update_user_chain_eq]
          simp [hC]
        · exact get_chain_total_build m bot.order
        · simpa using hwf (ch, m) (alGet_mem hC)
        · left; rfl
      | none =>
        refine ⟨Chain.new bot.order, [], ?_, ?_, ?_, ?_⟩
        · rw [update_allchain_case_new bot ch _ hA hC, update_user_chain_eq]
          simp only [alGet_alInsert, if_pos rfl, eq_self_iff_true, if_true,
            Option.getD_some]
          rw [alInsert_alInsert]
        · rfl
        · simp
        · right; exact ⟨rfl, rfl⟩
  obtain ⟨ac0, inner, heq, hsum, hnd, hcase⟩ := key
  rw [heq]
  constructor
  · intro p hp
    simp only at hp
    rcases mem_alInsert.mp hp with hpe | ⟨hold, _⟩
    · subst hpe
      exact keys_nodup_alInsert s _ hnd
    · exact hwf p hold
  · intro p hp
    simp only at hp
    rcases mem_alInsert.mp hp with hpe | ⟨hold, hne⟩
    · subst hpe
      simp only [chanSum, alGet_alInsert, if_pos rfl, eq_self_iff_true,
        if_true, Option.getD_some]
      rw [get_chain_total_train, hsum]
      cases hs : alGet inner s with
      | some c0 =>
        have hins := chanListSum_alInsert_some inner s c0
          (c0.train_string msg) hnd hs
        rw [get_chain_total_train] at hins
        simp only [hs, Option.getD_some]
        omega
      | none =>
        have hins := chanListSum_alInsert_none inner s
          ((Chain.new bot.order).train_string msg) hs
        rw [get_chain_total_train, get_chain_total_new] at hins
        simp only [hs, Option.getD_none]
        omega
    · have h := hinv p hold
      simp only [chanSum, alGet_alInsert, if_neg hne]
      exact h

theorem user_chain_mut_fst (bot : IrcBot) (ch u : String) :
    (user_chain_mut bot ch u).1 =
      { bot with chains :=
                   alInsert bot.chains ch
                     (match alGet ((alGet bot.chains ch).getD []) u with
                      | some _ => (alGet bot.chains ch).getD []
                      | none => alInsert ((alGet bot.chains ch).getD []) u
                          (Chain.new bot.order)) } := rfl

/-- `user_chain_mut` (get-or-create, as used by `force` and `status`, and by
the reply branch) preserves well-formedness and the aggregate invariant: it
can only add an empty chain. -/
theorem user_chain_mut_preserves (bot : IrcBot) (ch u : String)
    (hwf : WFChains bot) (hinv : AggInv bot) :
    WFChains (user_chain_mut bot ch u).1 ∧ AggInv (user_chain_mut bot ch u).1 := by
  rw [user_chain_mut_fst]
  cases hs : alGet ((alGet bot.chains ch).getD []) u with
  | some c0 =>
    simp only [hs]
    have hC : alGet bot.chains ch = some ((alGet bot.chains ch).getD []) := by
      cases hC2 : alGet bot.chains ch with
      | none => rw [hC2] at hs; simp [alGet] at hs
      | some m => simp
    constructor
    · intro p hp
      simp only at hp
      rcases mem_alInsert.mp hp with hpe | ⟨hold, _⟩
      · subst hpe
        exact hwf _ (alGet_mem hC)
      · exact hwf p hold
    · refine AggInv_of_eq bot _ rfl ?_ hinv
      intro ch2
      simp only [alGet_alInsert]
      by_cases hc2 : ch2 = ch
      · subst hc2
        rw [if_pos rfl]
        exact hC.symm
      · rw [if_neg hc2]
  | none =>
    simp only [hs]
    constructor
    · intro p hp
      simp only at hp
      rcases mem_alInsert.mp hp with hpe | ⟨hold, _⟩
      · subst hpe
        apply keys_nodup_alInsert
        cases hC2 : alGet bot.chains ch with
        | none => simp
        | some m => simpa using hwf (ch, m) (alGet_mem hC2)
      · exact hwf p hold
    · intro p hp
      simp only at hp
      have h := hinv p hp
      unfold chanSum at h ⊢
      simp only [alGet_alInsert]
      by_cases hc2 : p.1 = ch
      · rw [hc2] at h
        rw [if_pos hc2]
        simp only [Option.getD_some]
        rw [chanListSum_alInsert_none _ _ _ hs, get_chain_total_new]
        omega
      · rw [if_neg hc2]
        exact h

/-- One non-command channel message preserves well-formedness and the
aggregate invariant. -/
theorem channel_message_preserves (bot : IrcBot) (sender channel msg : String)
    (o : Oracle) (hwf : WFChains bot) (hinv : AggInv bot)
    (hcmd : isMarkovCmd (split_whitespace msg) = false) :
    WFChains (channel_message bot sender channel msg o).1 ∧
    AggInv (channel_message bot sender channel msg o).1 := by
  unfold channel_message
  by_cases hn : sender = bot.nick
  · simp only [hn, if_pos rfl]
    exact ⟨hwf, hinv⟩
  · rw [if_neg hn]
    simp only [hcmd, Bool.false_eq_true, if_false]
    cases hi : bot.is_ignored channel sender with
    | true =>
      simp only [if_true]
      exact ⟨hwf, hinv⟩
    | false =>
      simp only [Bool.false_eq_true, if_false]
      rcases hup : user_settings_mut bot channel sender with ⟨b1, r⟩
      have hb1 : (user_settings_mut bot channel sender).1 = b1 := by rw [hup]
      have hwf1 : WFChains b1 := by rw [← hb1]; exact hwf
      have hinv1 : AggInv b1 := by
        rw [← hb1]
        intro p hp
        exact hinv p hp
      have hstep := trainBoth_preserves b1 channel sender msg hwf1 hinv1
      simp only
      cases hr : o.rnd.blt r.chance with
      | false =>
        simp only [Bool.false_eq_true, if_false]
        exact hstep
      | true =>
        simp only [if_true]
        rcases huc : user_chain_mut (update_user_chain (update_allchain b1
            channel (fun a => a.train_string msg)) channel sender
            (fun c => c.train_string msg)) channel sender with ⟨b4, c4⟩
        have h4 := user_chain_mut_preserves _ channel sender hstep.1 hstep.2
        rw [huc] at h4
        simp only
        exact h4

/-- Folding any sequence of non-command messages preserves well-formedness
and the aggregate invariant. -/
theorem runMessages_preserves (events : List Event) : ∀ bot : IrcBot,
    WFChains bot → AggInv bot →
    (∀ e ∈ events, isMarkovCmd (split_whitespace e.2.2.1) = false) →
    WFChains (runMessages bot events) ∧ AggInv (runMessages bot events) := by
  induction events with
  | nil => intro bot h1 h2 _; exact ⟨h1, h2⟩
  | cons e rest ih =>
    intro bot h1 h2 hall
    have he := hall e (List.mem_cons_self e rest)
    have hstep := channel_message_preserves bot e.1 e.2.1 e.2.2.1 e.2.2.2 h1 h2 he
    unfold runMessages
    rw [List.foldl_cons]
    exact ih _ hstep.1 hstep.2 (fun e2 h => hall e2 (List.mem_cons_of_mem _ h))

/-- C7: starting from any state whose channel maps are well-formed (no
duplicate speaker keys — automatic for a real `HashMap`) and whose existing
aggregates are consistent (e.g. a fresh state with no aggregates), after any
sequence of trained non-command messages every channel aggregate's total
weight equals the sum of the per-speaker chain total weights of that channel
— whether the aggregate was built before any training or lazily after some
speaker chains already existed, since the lazy build merges each existing
chain exactly once and every subsequent message trains aggregate and speaker
chain alike. -/
theorem aggregate_consistency (bot : IrcBot) (events : List Event)
    (hwf : WFChains bot) (hinv : AggInv bot)
    (hnc : ∀ e ∈ events, isMarkovCmd (split_whitespace e.2.2.1) = false) :
    AggInv (runMessages bot events) :=
  (runMessages_preserves events bot hwf hinv hnc).2

/-- C7 witness: after the two trained messages the aggregate invariant holds,
and concretely the `#c` aggregate and the speaker-chain sum both weigh 6. -/
theorem aggregate_consistency_witness :
    AggInv (runMessages bot0 evs7) ∧
    (alGet (runMessages bot0 evs7).allchains "#c").map get_chain_total =
      some 6 ∧
    chanSum (runMessages bot0 evs7) "#c" = 6 :=
  ⟨aggregate_consistency bot0 evs7 (by decide) (by decide) (by decide),
   by decide, by decide⟩

end MarkovBot
